import Mathlib

/-!
Verification of the 1-D advection-diffusion-reaction (ADR) finite-difference
steppers of the notebook `01_Fundamentos_Transporte_Contaminantes.ipynb`.

A concentration field is modelled as a `List ℝ` (floating-point arrays are
idealized as exact reals, as the testable properties themselves do).  Each
stepper builds a fresh output list via `List.ofFn` over the index range
`0 .. len-1`; the per-index expression is a named `...Entry` function that is a
direct transcription of the body of the corresponding Python loop together
with its boundary assignments.  Out-of-range neighbour reads use `List.getD`
with default `0`; all claims keep the reads in bounds, exactly as the source
loops do.
-/

namespace ADR

/-- Entry `i` of the upwind advection update: the Python loop
`for i in range(1, n): C_new[i] = C[i] - U*(dt/dx)*(C[i]-C[i-1])`
followed by `C_new[0] = C[0]`. -/
noncomputable def advEntry (C : List ℝ) (U dx dt : ℝ) (i : ℕ) : ℝ :=
  if i = 0 then C.getD 0 0
  else C.getD i 0 - U * (dt / dx) * (C.getD i 0 - C.getD (i - 1) 0)

/-- Embedding of `advection_step(C, U, dx, dt)`: a new array of the same
length, filled entrywise by `advEntry`. -/
noncomputable def advection_step (C : List ℝ) (U dx dt : ℝ) : List ℝ :=
  List.ofFn (fun i : Fin C.length => advEntry C U dx dt i.val)

/-- Entry `i` of the central-difference diffusion update: the Python loop
`for i in range(1, n-1): C_new[i] = C[i] + D*(dt/dx**2)*(C[i+1]-2*C[i]+C[i-1])`
followed by the one-sided boundary assignments
`C_new[0] = C[0] + D*(dt/dx**2)*(C[1]-C[0])` and
`C_new[n-1] = C[n-1] + D*(dt/dx**2)*(C[n-2]-C[n-1])`. -/
noncomputable def diffEntry (C : List ℝ) (D dx dt : ℝ) (i : ℕ) : ℝ :=
  if i = 0 then C.getD 0 0 + D * (dt / dx ^ 2) * (C.getD 1 0 - C.getD 0 0)
  else if i = C.length - 1 then
    C.getD (C.length - 1) 0 +
      D * (dt / dx ^ 2) * (C.getD (C.length - 2) 0 - C.getD (C.length - 1) 0)
  else
    C.getD i 0 + D * (dt / dx ^ 2) *
      (C.getD (i + 1) 0 - 2 * C.getD i 0 + C.getD (i - 1) 0)

/-- Embedding of `diffusion_step(C, D, dx, dt)`. -/
noncomputable def diffusion_step (C : List ℝ) (D dx dt : ℝ) : List ℝ :=
  List.ofFn (fun i : Fin C.length => diffEntry C D dx dt i.val)

/-- Embedding of `reaction_step(C, k, dt)`, the numpy broadcast
`C * np.exp(-k * dt)`. -/
noncomputable def reaction_step (C : List ℝ) (k dt : ℝ) : List ℝ :=
  C.map (fun c => c * Real.exp (-(k * dt)))

/-- Entry `i` of the combined ADR update: the Python loop
`for i in range(1, n-1)` adding the three terms
`advection = -U*(dt/dx)*(C[i]-C[i-1])`,
`diffusion = D*(dt/dx**2)*(C[i+1]-2*C[i]+C[i-1])`,
`reaction = -k*dt*C[i]` to `C[i]`, followed by the boundary assignments
`C_new[0] = C[0]` and `C_new[n-1] = C[n-2]`. -/
noncomputable def adrEntry (C : List ℝ) (U D k dx dt : ℝ) (i : ℕ) : ℝ :=
  if i = 0 then C.getD 0 0
  else if i = C.length - 1 then C.getD (C.length - 2) 0
  else
    C.getD i 0 + (-U * (dt / dx) * (C.getD i 0 - C.getD (i - 1) 0)) +
      D * (dt / dx ^ 2) *
        (C.getD (i + 1) 0 - 2 * C.getD i 0 + C.getD (i - 1) 0) +
      (-k * dt * C.getD i 0)

/-- Embedding of `adr_step(C, U, D, k, dx, dt)`. -/
noncomputable def adr_step (C : List ℝ) (U D k dx dt : ℝ) : List ℝ :=
  List.ofFn (fun i : Fin C.length => adrEntry C U D k dx dt i.val)

/-- The time loop of `simulate_reaction`: apply `reaction_step` `n` times to
the initial field. -/
noncomputable def iterate_reaction (C0 : List ℝ) (k dt : ℝ) : ℕ → List ℝ
  | 0 => C0
  | n + 1 => reaction_step (iterate_reaction C0 k dt n) k dt

/-- The spreading width `sigma_t = np.sqrt(sigma_0**2 + 2 * diffusion * time)`
of the analytic pure-diffusion Gaussian in `diffusion_multiple_cases`. -/
noncomputable def sigmaT (sigma0 D t : ℝ) : ℝ :=
  Real.sqrt (sigma0 ^ 2 + 2 * D * t)

/-- The analytic pure-diffusion reference solution of
`diffusion_multiple_cases`:
`amplitude = sigma_0 / sigma_t` and
`C_t = amplitude * np.exp(-0.5 * ((x - mu) / sigma_t) ** 2)`. -/
noncomputable def pureDiffusion (x t D mu sigma0 : ℝ) : ℝ :=
  (sigma0 / sigmaT sigma0 D t) *
    Real.exp (-(0.5 * ((x - mu) / sigmaT sigma0 D t) ^ 2))

/-- Error kind raised by the stability policy when no finite bound exists. -/
inductive TimeStepError : Type where
  | UnderconstrainedTimeStep : TimeStepError

/-- Modelled from the spec: the advective part of the stability policy,
`dx/|U|`, treated as an absent (infinite) bound when `U = 0`.  The repository
only instantiates the policy inline at nonzero parameters
(`dt = 0.25 * min(dx/U, dx**2/(2*D))` in `simulate_adr`,
`dt = 0.25 * dx**2 / D` in `simulate_diffusion`); no guarded `chooseTimeStep`
function exists in the source. -/
noncomputable def advBound (U dx : ℝ) : Option ℝ :=
  if U = 0 then none else some (dx / |U|)

/-- Modelled from the spec: the diffusive part of the stability policy,
`dx^2/(2*D)`, treated as an absent (infinite) bound when `D = 0`. -/
noncomputable def diffBound (D dx : ℝ) : Option ℝ :=
  if D = 0 then none else some (dx ^ 2 / (2 * D))

/-- Minimum of two optional bounds, where `none` stands for an infinite
(absent) bound. -/
def optMin : Option ℝ → Option ℝ → Option ℝ
  | none, b => b
  | some a, none => some a
  | some a, some b => some (min a b)

/-- Modelled from the spec: `chooseTimeStep(grid, params, safetyFactor)`
computes the advective bound (infinite if `U = 0`), the diffusive bound
(infinite if `D = 0`), takes the minimum, multiplies by the safety factor,
and fails with `UnderconstrainedTimeStep` if both bounds are infinite. -/
noncomputable def chooseTimeStep (U D dx sf : ℝ) : Except TimeStepError ℝ :=
  match optMin (advBound U dx) (diffBound D dx) with
  | none => Except.error TimeStepError.UnderconstrainedTimeStep
  | some b => Except.ok (sf * b)

/-! ### Indexing infrastructure -/

/-- Reading an `ofFn` list with `getD` at an in-range index yields the
generating function. -/
theorem getD_ofFn {n : ℕ} (f : Fin n → ℝ) (i : ℕ) (h : i < n) (d : ℝ) :
    (List.ofFn f).getD i d = f ⟨i, h⟩ := by
  rw [List.getD_eq_getElem _ d (by simpa using h)]
  exact List.getElem_ofFn f i (by simpa using h)

/-- Reading a mapped list with `getD` at an in-range index applies the map
to the original entry. -/
theorem getD_map (g : ℝ → ℝ) (l : List ℝ) (i : ℕ) (h : i < l.length) :
    (l.map g).getD i 0 = g (l.getD i 0) := by
  rw [List.getD_eq_getElem _ 0 (by simpa using h), List.getD_eq_getElem _ 0 h]
  exact List.getElem_map g

theorem advection_step_getD (C : List ℝ) (U dx dt : ℝ) (i : ℕ)
    (h : i < C.length) :
    (advection_step C U dx dt).getD i 0 = advEntry C U dx dt i :=
  getD_ofFn _ i h 0

theorem diffusion_step_getD (C : List ℝ) (D dx dt : ℝ) (i : ℕ)
    (h : i < C.length) :
    (diffusion_step C D dx dt).getD i 0 = diffEntry C D dx dt i :=
  getD_ofFn _ i h 0

theorem adr_step_getD (C : List ℝ) (U D k dx dt : ℝ) (i : ℕ)
    (h : i < C.length) :
    (adr_step C U D k dx dt).getD i 0 = adrEntry C U D k dx dt i :=
  getD_ofFn _ i h 0

/-- The sum of a list is the range-sum of its `getD` reads. -/
theorem sum_eq_range_getD (C : List ℝ) :
    C.sum = ∑ i in Finset.range C.length, C.getD i 0 := by
  conv_lhs => rw [← List.ofFn_get C]
  rw [List.sum_ofFn]
  rw [show (fun i : Fin C.length => C.get i) =
      (fun i : Fin C.length => C.getD i.val 0) from ?_]
  · exact Fin.sum_univ_eq_sum_range (fun j => C.getD j 0) C.length
  · funext i
    rw [List.getD_eq_getElem _ 0 i.isLt]
    rfl

/-- The sum of an `ofFn` list is the range-sum of its generating function. -/
theorem sum_ofFn_range (n : ℕ) (f : ℕ → ℝ) :
    (List.ofFn (fun i : Fin n => f i.val)).sum = ∑ i in Finset.range n, f i := by
  rw [List.sum_ofFn]
  exact Fin.sum_univ_eq_sum_range f n

/-! ### Claim theorems -/

/-- C1: for a field of length at least 3 and positive parameters, `adr_step`
updates each interior point by the sum of the upwind advection term, the
central diffusion term and the linear decay term, keeps the left boundary
fixed, and copies the second-to-last old value to the right boundary. -/
theorem adr_step_formula (C : List ℝ) (U D k dx dt : ℝ)
    (hN : 3 ≤ C.length) (hU : 0 < U) (hD : 0 < D) (hk : 0 < k) (hdx : 0 < dx) :
    (∀ i, 1 ≤ i → i ≤ C.length - 2 →
      (adr_step C U D k dx dt).getD i 0 =
        C.getD i 0 + (-U * (dt / dx) * (C.getD i 0 - C.getD (i - 1) 0)) +
          D * (dt / dx ^ 2) *
            (C.getD (i + 1) 0 - 2 * C.getD i 0 + C.getD (i - 1) 0) +
          (-k * dt * C.getD i 0)) ∧
    (adr_step C U D k dx dt).getD 0 0 = C.getD 0 0 ∧
    (adr_step C U D k dx dt).getD (C.length - 1) 0 = C.getD (C.length - 2) 0 := by
  refine ⟨fun i h1 h2 => ?_, ?_, ?_⟩
  · rw [adr_step_getD C U D k dx dt i (by omega)]
    unfold adrEntry
    rw [if_neg (by omega), if_neg (by omega)]
  · rw [adr_step_getD C U D k dx dt 0 (by omega)]
    unfold adrEntry
    rw [if_pos rfl]
  · rw [adr_step_getD C U D k dx dt (C.length - 1) (by omega)]
    unfold adrEntry
    rw [if_neg (by omega), if_pos rfl]

/-- Witness for C1 at the concrete field `[1, 2, 3]` with all parameters 1. -/
theorem adr_step_formula_witness :
    (adr_step [1, 2, 3] 1 1 1 1 1).getD 0 0 = ([1, 2, 3] : List ℝ).getD 0 0 :=
  (adr_step_formula [1, 2, 3] 1 1 1 1 1 (by norm_num) one_pos one_pos one_pos
    one_pos).2.1

/-- C7: `advection_step` applies the upwind update at every index `i ≥ 1`,
including the rightmost one, and keeps the left boundary fixed. -/
theorem advection_step_formula (C : List ℝ) (U dx dt : ℝ) (hdx : 0 < dx) :
    (∀ i, 1 ≤ i → i < C.length →
      (advection_step C U dx dt).getD i 0 =
        C.getD i 0 - U * (dt / dx) * (C.getD i 0 - C.getD (i - 1) 0)) ∧
    (0 < C.length → (advection_step C U dx dt).getD 0 0 = C.getD 0 0) := by
  refine ⟨fun i h1 h2 => ?_, fun h0 => ?_⟩
  · rw [advection_step_getD C U dx dt i h2]
    unfold advEntry
    rw [if_neg (by omega)]
  · rw [advection_step_getD C U dx dt 0 h0]
    unfold advEntry
    rw [if_pos rfl]

/-- Witness for C7 at the concrete field `[1, 2]` with `U = dx = dt = 1`. -/
theorem advection_step_formula_witness :
    (advection_step [1, 2] 1 1 1).getD 1 0 =
      ([1, 2] : List ℝ).getD 1 0 -
        1 * (1 / 1) * (([1, 2] : List ℝ).getD 1 0 - ([1, 2] : List ℝ).getD 0 0) :=
  (advection_step_formula [1, 2] 1 1 1 one_pos).1 1 (by norm_num) (by norm_num)

/-- C9: all four steppers return a field of the same length as their input;
in this embedding they are pure functions, so the input list is untouched. -/
theorem steppers_preserve_length (C : List ℝ) (U D k dx dt : ℝ) :
    (advection_step C U dx dt).length = C.length ∧
    (diffusion_step C D dx dt).length = C.length ∧
    (reaction_step C k dt).length = C.length ∧
    (adr_step C U D k dx dt).length = C.length := by
  refine ⟨?_, ?_, ?_, ?_⟩ <;>
    simp [advection_step, diffusion_step, reaction_step, adr_step]

/-- C10: under the Courant condition `0 ≤ U·dt/dx ≤ 1`, `advection_step`
maps a nonnegative field to a nonnegative field, each updated point being a
convex combination of two old values. -/
theorem advection_step_nonneg (C : List ℝ) (U dx dt : ℝ)
    (hC : ∀ x ∈ C, 0 ≤ x) (h0 : 0 ≤ U * dt / dx) (h1 : U * dt / dx ≤ 1) :
    ∀ x ∈ advection_step C U dx dt, 0 ≤ x := by
  have hg : ∀ j, j < C.length → 0 ≤ C.getD j 0 := by
    intro j hj
    rw [List.getD_eq_getElem _ 0 hj]
    exact hC _ (List.getElem_mem hj)
  intro x hx
  rw [advection_step, List.mem_ofFn] at hx
  obtain ⟨i, hi⟩ := hx
  rw [← hi]
  change 0 ≤ advEntry C U dx dt i.val
  unfold advEntry
  by_cases hz : i.val = 0
  · rw [if_pos hz]
    exact hg 0 (by omega)
  · rw [if_neg hz]
    have hgi := hg i.val i.isLt
    have hgim := hg (i.val - 1) (by omega)
    have hrw : C.getD i.val 0 -
        U * (dt / dx) * (C.getD i.val 0 - C.getD (i.val - 1) 0) =
        (1 - U * dt / dx) * C.getD i.val 0 +
          (U * dt / dx) * C.getD (i.val - 1) 0 := by
      rw [← mul_div_assoc]
      ring
    rw [hrw]
    have hc1 : 0 ≤ 1 - U * dt / dx := by linarith
    exact add_nonneg (mul_nonneg hc1 hgi) (mul_nonneg h0 hgim)

/-- Witness for C10: entry 1 of the step on `[1, 2, 0]` with Courant number
`1/2` is nonnegative. -/
theorem advection_step_nonneg_witness :
    0 ≤ (advection_step [1, 2, 0] 1 2 1).getD 1 0 := by
  have hlen : (advection_step [1, 2, 0] 1 2 1).length = 3 := by
    simp [advection_step]
  have hmem : (advection_step [1, 2, 0] 1 2 1).getD 1 0 ∈
      advection_step [1, 2, 0] 1 2 1 := by
    rw [List.getD_eq_getElem _ 0 (by rw [hlen]; norm_num)]
    exact List.getElem_mem _
  exact advection_step_nonneg [1, 2, 0] 1 2 1
    (by intro x hx; fin_cases hx <;> norm_num) (by norm_num) (by norm_num) _
    hmem

/-- C2 (amended): on interior points the combined stepper reduces to the
advection stepper when `D = k = 0` and to the diffusion stepper when
`U = k = 0`; with `U = D = 0` it yields the linearized decay
`C[i]·(1 − k·dt)`, not the exact exponential of `reaction_step`. -/
theorem adr_step_reduces (C : List ℝ) (U D k dx dt : ℝ) (hN : 3 ≤ C.length)
    (i : ℕ) (h1 : 1 ≤ i) (h2 : i ≤ C.length - 2) :
    (adr_step C U 0 0 dx dt).getD i 0 = (advection_step C U dx dt).getD i 0 ∧
    (adr_step C 0 D 0 dx dt).getD i 0 = (diffusion_step C D dx dt).getD i 0 ∧
    (adr_step C 0 0 k dx dt).getD i 0 = C.getD i 0 * (1 - k * dt) := by
  have hi : i < C.length := by omega
  refine ⟨?_, ?_, ?_⟩
  · rw [adr_step_getD C U 0 0 dx dt i hi, advection_step_getD C U dx dt i hi]
    unfold adrEntry advEntry
    rw [if_neg (by omega), if_neg (by omega), if_neg (by omega)]
    ring
  · rw [adr_step_getD C 0 D 0 dx dt i hi, diffusion_step_getD C D dx dt i hi]
    unfold adrEntry diffEntry
    rw [if_neg (by omega), if_neg (by omega), if_neg (by omega),
      if_neg (by omega)]
    ring
  · rw [adr_step_getD C 0 0 k dx dt i hi]
    unfold adrEntry
    rw [if_neg (by omega), if_neg (by omega)]
    ring

/-- Witness for C2 (amended) at the field `[1, 2, 3]`, interior index 1. -/
theorem adr_step_reduces_witness :
    (adr_step [1, 2, 3] 1 0 0 1 1).getD 1 0 =
      (advection_step [1, 2, 3] 1 1 1).getD 1 0 :=
  (adr_step_reduces [1, 2, 3] 1 1 1 1 1 (by norm_num) 1 (by norm_num)
    (by norm_num)).1

/-- Counterexample for C2 as stated: with `U = D = 0`, `k = dt = 1` on the
field `[0, 1, 0]`, the combined stepper gives `1 − k·dt = 0` at the interior
point while `reaction_step` gives `exp(−1) ≠ 0`. -/
theorem adr_step_reaction_counterexample :
    ¬ ((adr_step [0, 1, 0] 0 0 1 1 1).getD 1 0 =
        (reaction_step [0, 1, 0] 1 1).getD 1 0) := by
  have hL : (adr_step [0, 1, 0] 0 0 1 1 1).getD 1 0 = 0 := by
    rw [adr_step_getD [0, 1, 0] 0 0 1 1 1 1 (by norm_num)]
    unfold adrEntry
    norm_num
  have hR : (reaction_step [0, 1, 0] 1 1).getD 1 0 = Real.exp (-1) := by
    unfold reaction_step
    rw [getD_map _ [0, 1, 0] 1 (by norm_num)]
    norm_num
  rw [hL, hR]
  intro h
  exact Real.exp_ne_zero (-1) h.symm

/-- C3: one diffusion step conserves the total mass exactly: the interior
stencil telescopes and the two one-sided boundary corrections cancel the
leftover boundary fluxes. -/
theorem diffusion_step_mass (C : List ℝ) (D dx dt : ℝ) (hN : 3 ≤ C.length)
    (hD : 0 < D) (hdx : 0 < dx) (hdt : 0 < dt) :
    (diffusion_step C D dx dt).sum = C.sum := by
  obtain ⟨m, hm⟩ : ∃ m, C.length = m + 2 := ⟨C.length - 2, by omega⟩
  have hL0 : (diffusion_step C D dx dt).sum =
      ∑ i in Finset.range C.length, diffEntry C D dx dt i :=
    sum_ofFn_range C.length (diffEntry C D dx dt)
  have hL : (diffusion_step C D dx dt).sum =
      diffEntry C D dx dt 0 +
        (∑ j in Finset.range m, diffEntry C D dx dt (j + 1)) +
        diffEntry C D dx dt (m + 1) := by
    rw [hL0, hm, Finset.sum_range_succ, Finset.sum_range_succ']
    ring
  have hR : C.sum =
      C.getD 0 0 + (∑ j in Finset.range m, C.getD (j + 1) 0) +
        C.getD (m + 1) 0 := by
    rw [sum_eq_range_getD, hm, Finset.sum_range_succ, Finset.sum_range_succ']
    ring
  have hinterior : ∑ j in Finset.range m, diffEntry C D dx dt (j + 1) =
      ∑ j in Finset.range m,
        (C.getD (j + 1) 0 + D * (dt / dx ^ 2) *
          ((C.getD (j + 1 + 1) 0 - C.getD (j + 1) 0) -
            (C.getD (j + 1) 0 - C.getD j 0))) := by
    refine Finset.sum_congr rfl fun j hj => ?_
    have hj2 : j < m := Finset.mem_range.mp hj
    unfold diffEntry
    rw [if_neg (by omega), if_neg (by omega)]
    have e1 : j + 1 - 1 = j := by omega
    rw [e1]
    ring
  have htel : ∑ j in Finset.range m,
      ((C.getD (j + 1 + 1) 0 - C.getD (j + 1) 0) -
        (C.getD (j + 1) 0 - C.getD j 0)) =
      (C.getD (m + 1) 0 - C.getD m 0) - (C.getD 1 0 - C.getD 0 0) := by
    have h := Finset.sum_range_sub (fun j => C.getD (j + 1) 0 - C.getD j 0) m
    simpa using h
  have h0 : diffEntry C D dx dt 0 =
      C.getD 0 0 + D * (dt / dx ^ 2) * (C.getD 1 0 - C.getD 0 0) := by
    unfold diffEntry
    rw [if_pos rfl]
  have hlast : diffEntry C D dx dt (m + 1) =
      C.getD (m + 1) 0 + D * (dt / dx ^ 2) *
        (C.getD m 0 - C.getD (m + 1) 0) := by
    unfold diffEntry
    rw [if_neg (by omega), if_pos (by omega)]
    have e1 : C.length - 1 = m + 1 := by omega
    have e2 : C.length - 2 = m := by omega
    rw [e1, e2]
  rw [hL, hR, hinterior, Finset.sum_add_distrib, ← Finset.mul_sum, htel, h0,
    hlast]
  ring

/-- Witness for C3 at the field `[1, 2, 3]` with `D = dx = dt = 1`. -/
theorem diffusion_step_mass_witness :
    (diffusion_step [1, 2, 3] 1 1 1).sum = ([1, 2, 3] : List ℝ).sum :=
  diffusion_step_mass [1, 2, 3] 1 1 1 (by norm_num) one_pos one_pos one_pos

/-- Counterexample for C4 as stated: on `[1, 0, 0]` with `U = dx = dt = 1`
the advection step has sum `2`, not the original sum `1`: the upwind scheme
leaks mass through the boundaries unless `C[N-1] = C[0]`. -/
theorem advection_step_mass_counterexample :
    ¬ ((advection_step [1, 0, 0] 1 1 1).sum = ([1, 0, 0] : List ℝ).sum) := by
  have hL : (advection_step [1, 0, 0] 1 1 1).sum = 2 := by
    have h0 : (advection_step [1, 0, 0] 1 1 1).sum =
        ∑ i in Finset.range 3, advEntry [1, 0, 0] 1 1 1 i :=
      sum_ofFn_range 3 (advEntry [1, 0, 0] 1 1 1)
    rw [h0, Finset.sum_range_succ, Finset.sum_range_succ,
      Finset.sum_range_succ, Finset.sum_range_zero]
    unfold advEntry
    norm_num
  have hR : ([1, 0, 0] : List ℝ).sum = 1 := by norm_num
  rw [hL, hR]
  norm_num

/-- C4 (amended): one advection step changes the total sum by exactly
`−U·(dt/dx)·(C[N−1] − C[0])`; mass is conserved precisely when the two
endpoint values coincide. -/
theorem advection_step_mass_shift (C : List ℝ) (U dx dt : ℝ)
    (hN : 3 ≤ C.length) (hU : 0 < U) (hdx : 0 < dx) (hdt : 0 < dt) :
    (advection_step C U dx dt).sum =
      C.sum - U * (dt / dx) * (C.getD (C.length - 1) 0 - C.getD 0 0) := by
  obtain ⟨m, hm⟩ : ∃ m, C.length = m + 1 := ⟨C.length - 1, by omega⟩
  have hL0 : (advection_step C U dx dt).sum =
      ∑ i in Finset.range C.length, advEntry C U dx dt i :=
    sum_ofFn_range C.length (advEntry C U dx dt)
  have hL : (advection_step C U dx dt).sum =
      advEntry C U dx dt 0 +
        ∑ j in Finset.range m, advEntry C U dx dt (j + 1) := by
    rw [hL0, hm, Finset.sum_range_succ']
    ring
  have hR : C.sum = C.getD 0 0 + ∑ j in Finset.range m, C.getD (j + 1) 0 := by
    rw [sum_eq_range_getD, hm, Finset.sum_range_succ']
    ring
  have hinterior : ∑ j in Finset.range m, advEntry C U dx dt (j + 1) =
      ∑ j in Finset.range m,
        (C.getD (j + 1) 0 -
          U * (dt / dx) * (C.getD (j + 1) 0 - C.getD j 0)) := by
    refine Finset.sum_congr rfl fun j hj => ?_
    unfold advEntry
    rw [if_neg (by omega)]
    have e1 : j + 1 - 1 = j := by omega
    rw [e1]
  have htel : ∑ j in Finset.range m, (C.getD (j + 1) 0 - C.getD j 0) =
      C.getD m 0 - C.getD 0 0 :=
    Finset.sum_range_sub (fun j => C.getD j 0) m
  have h0 : advEntry C U dx dt 0 = C.getD 0 0 := by
    unfold advEntry
    rw [if_pos rfl]
  have hend : C.length - 1 = m := by omega
  rw [hL, hR, hinterior, Finset.sum_sub_distrib, ← Finset.mul_sum, htel, h0,
    hend]
  ring

/-- Witness for C4 (amended) at the field `[1, 0, 0]` with all parameters 1:
the sum drops by `−1·(1/1)·(0 − 1) = +1`. -/
theorem advection_step_mass_shift_witness :
    (advection_step [1, 0, 0] 1 1 1).sum =
      ([1, 0, 0] : List ℝ).sum -
        1 * (1 / 1) *
          (([1, 0, 0] : List ℝ).getD (([1, 0, 0] : List ℝ).length - 1) 0 -
            ([1, 0, 0] : List ℝ).getD 0 0) :=
  advection_step_mass_shift [1, 0, 0] 1 1 1 (by norm_num) one_pos one_pos
    one_pos

/-- Iterating `reaction_step` preserves the field length. -/
theorem iterate_reaction_length (C0 : List ℝ) (k dt : ℝ) (n : ℕ) :
    (iterate_reaction C0 k dt n).length = C0.length := by
  induction n with
  | zero => rfl
  | succ n ih =>
    show (reaction_step (iterate_reaction C0 k dt n) k dt).length = C0.length
    rw [reaction_step, List.length_map, ih]

/-- C5: `n` applications of `reaction_step` give exactly
`C0[i]·exp(−k·(n·dt))` at every grid point — the reaction sub-step is the
closed-form solution, so iteration composes exactly. -/
theorem reaction_exact (C0 : List ℝ) (k dt : ℝ) (hk : 0 < k) (hdt : 0 < dt)
    (n : ℕ) (i : ℕ) (hi : i < C0.length) :
    (iterate_reaction C0 k dt n).getD i 0 =
      C0.getD i 0 * Real.exp (-(k * (n * dt))) := by
  induction n with
  | zero => simp [iterate_reaction]
  | succ n ih =>
    have hlen : (iterate_reaction C0 k dt n).length = C0.length :=
      iterate_reaction_length C0 k dt n
    show (reaction_step (iterate_reaction C0 k dt n) k dt).getD i 0 = _
    rw [reaction_step, getD_map _ _ i (by rw [hlen]; exact hi), ih, mul_assoc,
      ← Real.exp_add]
    congr 1
    push_cast
    ring

/-- Witness for C5: one step on the field `[2]` with `k = dt = 1`. -/
theorem reaction_exact_witness :
    (iterate_reaction [2] 1 1 1).getD 0 0 =
      ([2] : List ℝ).getD 0 0 * Real.exp (-(1 * ((1 : ℕ) * 1))) :=
  reaction_exact [2] 1 1 one_pos one_pos 1 0 (by norm_num)

/-- C6 (spec-modelled): the stability policy treats `U = 0` and `D = 0` as
absent bounds, returns the safety factor times the surviving bound (or the
minimum of both), errs with `UnderconstrainedTimeStep` exactly when both
parameters vanish, and yields `dt = 1/4` at `U = 1`, `D = 0`, `dx = 1/2`,
`safetyFactor = 1/2`. -/
theorem chooseTimeStep_spec :
    (∀ U D dx sf : ℝ,
      (chooseTimeStep U D dx sf =
          Except.error TimeStepError.UnderconstrainedTimeStep ↔
        U = 0 ∧ D = 0) ∧
      (U ≠ 0 → D = 0 →
        chooseTimeStep U D dx sf = Except.ok (sf * (dx / |U|))) ∧
      (U = 0 → D ≠ 0 →
        chooseTimeStep U D dx sf = Except.ok (sf * (dx ^ 2 / (2 * D)))) ∧
      (U ≠ 0 → D ≠ 0 →
        chooseTimeStep U D dx sf =
          Except.ok (sf * min (dx / |U|) (dx ^ 2 / (2 * D))))) ∧
    chooseTimeStep 1 0 (1 / 2) (1 / 2) = Except.ok (1 / 4) := by
  constructor
  · intro U D dx sf
    by_cases hU : U = 0 <;> by_cases hD : D = 0 <;>
      simp [chooseTimeStep, advBound, diffBound, optMin, hU, hD]
  · have h1 : (1 : ℝ) ≠ 0 := one_ne_zero
    simp [chooseTimeStep, advBound, diffBound, optMin, h1]
    norm_num

/-- Witness for C6: the diffusion-only case
`U = 0, D = 2, dx = 1/2, safetyFactor = 1/4` gives
`dt = (1/4)·((1/2)²/(2·2))`, and the doubly-degenerate case errs. -/
theorem chooseTimeStep_spec_witness :
    chooseTimeStep 0 2 (1 / 2) (1 / 4) =
      Except.ok ((1 / 4) * ((1 / 2 : ℝ) ^ 2 / (2 * 2))) ∧
    chooseTimeStep 0 0 1 1 =
      Except.error TimeStepError.UnderconstrainedTimeStep :=
  ⟨(chooseTimeStep_spec.1 0 2 (1 / 2) (1 / 4)).2.2.1 rfl (by norm_num),
    (chooseTimeStep_spec.1 0 0 1 1).1.mpr ⟨rfl, rfl⟩⟩

/-- C8: the analytic pure-diffusion Gaussian reduces to the initial pulse at
`t = 0`, and its width–amplitude product `σ(t)·(σ₀/σ(t))` is the constant
`σ₀` for every admissible time. -/
theorem pureDiffusion_spec (x t D mu sigma0 : ℝ) (hs : 0 < sigma0)
    (hD : 0 ≤ D) (ht : 0 ≤ t) :
    pureDiffusion x 0 D mu sigma0 =
      Real.exp (-(0.5 * ((x - mu) / sigma0) ^ 2)) ∧
    sigmaT sigma0 D t * (sigma0 / sigmaT sigma0 D t) = sigma0 := by
  have h0 : sigmaT sigma0 D 0 = sigma0 := by
    unfold sigmaT
    rw [mul_zero, add_zero, Real.sqrt_sq hs.le]
  constructor
  · unfold pureDiffusion
    rw [h0, div_self hs.ne.symm, one_mul]
  · have hpos : 0 < sigmaT sigma0 D t := by
      unfold sigmaT
      apply Real.sqrt_pos.mpr
      have h2 : 0 ≤ 2 * D * t := by positivity
      nlinarith [pow_pos hs 2]
    rw [mul_comm, div_mul_cancel₀ sigma0 hpos.ne.symm]

/-- Witness for C8 at `x = 0, t = 1, D = 1, mu = 0, sigma0 = 1`. -/
theorem pureDiffusion_spec_witness :
    pureDiffusion 0 0 1 0 1 = Real.exp (-(0.5 * ((0 - 0) / 1) ^ 2)) ∧
    sigmaT 1 1 1 * (1 / sigmaT 1 1 1) = 1 := by
  have h := pureDiffusion_spec 0 1 1 0 1 one_pos zero_le_one zero_le_one
  exact ⟨h.1, h.2⟩

end ADR
